import Mathlib

deriving instance DecidableEq for Except

namespace ClaudeFlow

mutual

/-- A structured header value, as produced by the external YAML interop parser.
Mirrors the value space the loader manipulates: strings, numbers, booleans,
sequences, nested mappings, and the null value. -/
inductive Yaml where
  | str (s : String)
  | num (n : Int)
  | bool (b : Bool)
  | seq (xs : YamlSeq)
  | map (kvs : YamlMap)
  | nullv

/-- A sequence of header values. -/
inductive YamlSeq where
  | nil
  | cons (hd : Yaml) (tl : YamlSeq)

/-- A key-value mapping of header values (insertion order preserved). -/
inductive YamlMap where
  | nil
  | cons (k : String) (v : Yaml) (tl : YamlMap)

end

deriving instance DecidableEq for Yaml
deriving instance Repr for Yaml

/-- Flatten a header sequence into a Lean list. -/
def YamlSeq.toList : YamlSeq → List Yaml
  | .nil => []
  | .cons hd tl => hd :: tl.toList

/-- First binding for `key` in a header mapping (agent headers have unique keys). -/
def YamlMap.find? : YamlMap → String → Option Yaml
  | .nil, _ => none
  | .cons k v tl, key => if k = key then some v else tl.find? key

/-- JS truthiness of a header value: empty string, zero, `false` and `null` are
falsy; arrays and objects are always truthy. -/
def Yaml.truthy : Yaml → Bool
  | .str s => s != ""
  | .num n => n != 0
  | .bool b => b
  | .seq _ => true
  | .map _ => true
  | .nullv => false

/-- Truthiness of a possibly-undefined JS value (`none` models `undefined`). -/
def truthyO : Option Yaml → Bool
  | none => false
  | some v => v.truthy

/-- JS property access `v.key` for the keys the loader reads: on a mapping it is
the stored binding, on every other value it is `undefined` (`none`). -/
def Yaml.getField : Yaml → String → Option Yaml
  | .map kvs, key => kvs.find? key
  | _, _ => none

/-- JS `frontmatter.metadata?.key`: optional chaining through the `metadata`
field; property access on any non-mapping value yields `undefined`. -/
def metaField (fm : Yaml) (key : String) : Option Yaml :=
  (fm.getField "metadata").bind (fun m => m.getField key)

/-- JS `a || b` where `a` is a possibly-undefined value: `a` when truthy, else `b`. -/
def jsOrY (a : Option Yaml) (b : Yaml) : Yaml :=
  match a with
  | some v => if v.truthy then v else b
  | none => b

/-! ### JS string primitives, modelled on lists of characters -/

/-- `pat` is a leading run of `s`. -/
def startsWithL : List Char → List Char → Bool
  | _, [] => true
  | [], _ :: _ => false
  | c :: cs, d :: ds => c == d && startsWithL cs ds

/-- JS `String.prototype.includes`: `pat` occurs as a contiguous substring. -/
def jsIncludesL (pat : List Char) : List Char → Bool
  | [] => startsWithL [] pat
  | c :: cs => startsWithL (c :: cs) pat || jsIncludesL pat cs

/-- `jsIncludes s sub`: JS `s.includes(sub)`. -/
def jsIncludes (s sub : String) : Bool := jsIncludesL sub.data s.data

/-- JS `String.prototype.toLowerCase` on the code points appearing here. -/
def jsToLower (s : String) : String := ⟨s.data.map Char.toLower⟩

/-- Whitespace characters recognized by the JS `\s` class and `trim` on the
inputs appearing here (JS additionally strips exotic Unicode spaces). -/
def isJsWs (c : Char) : Bool :=
  c == ' ' || c == '\t' || c == '\n' || c == '\r' || c == '\x0b' || c == '\x0c'

/-- JS `String.prototype.trim`. -/
def jsTrim (s : String) : String :=
  ⟨((s.data.dropWhile isJsWs).reverse.dropWhile isJsWs).reverse⟩

/-- Core of `replace(/\s+/g, '-')`: each maximal whitespace run becomes one hyphen.
The flag records whether we are inside a whitespace run. -/
def collapseWsAux : Bool → List Char → List Char
  | _, [] => []
  | inRun, c :: cs =>
    if isJsWs c then
      (if inRun then collapseWsAux true cs else '-' :: collapseWsAux true cs)
    else c :: collapseWsAux false cs

/-- JS `s.replace(/\s+/g, '-')`. -/
def collapseWs (s : String) : String := ⟨collapseWsAux false s.data⟩

/-- JS `s.replace(pat, rep)` with a plain-string pattern: replaces the first
occurrence only; the string is returned unchanged when `pat` does not occur. -/
def jsReplaceFirstL (pat rep : List Char) : List Char → List Char
  | [] => if pat.isEmpty then rep else []
  | c :: cs =>
    if startsWithL (c :: cs) pat then rep ++ (c :: cs).drop pat.length
    else c :: jsReplaceFirstL pat rep cs

/-- A path separator as matched by the source's `[\/\\]` character class. -/
def isPathSep (c : Char) : Bool := c == '/' || c == '\\'

/-- JS `s.replace(/^[\/\\]/, '')`: drop one leading separator if present. -/
def stripLeadingSepL : List Char → List Char
  | [] => []
  | c :: cs => if isPathSep c then cs else c :: cs

/-- JS `s.split(/[\/\\]/)`: split on separators, keeping empty fields. -/
def splitSepsL : List Char → List (List Char)
  | [] => [[]]
  | c :: cs =>
    match splitSepsL cs with
    | [] => [[]]
    | h :: t => if isPathSep c then [] :: h :: t else (c :: h) :: t

/-! ### Node path functions (POSIX), restricted to the shapes the loader uses -/

/-- Node `path.basename(p)`: last segment after stripping trailing slashes.
(The all-slashes root edge case, where Node returns "/", is not needed here.) -/
def jsBasenameL (l : List Char) : List Char :=
  ((l.reverse.dropWhile (fun c => c == '/')).takeWhile (fun c => c != '/')).reverse

/-- Node `path.basename(p)` as a string. -/
def jsBasename (p : String) : String := ⟨jsBasenameL p.data⟩

/-- `pat` is a trailing run of `s`. -/
def endsWithL (s pat : List Char) : Bool := startsWithL s.reverse pat.reverse

/-- Node `path.basename(p, ext)`: the basename, with `ext` stripped when it is a
proper suffix (Node keeps the name when it equals `ext` exactly). -/
def jsBasenameExt (p ext : String) : String :=
  let b := jsBasename p
  if b != ext && endsWithL b.data ext.data then
    ⟨b.data.take (b.data.length - ext.data.length)⟩
  else b

/-- Node `path.extname(p)`: from the last dot of the basename, empty when the
basename has no dot or starts with its only dot. -/
def jsExtname (p : String) : String :=
  let r := (jsBasenameL p.data).reverse
  let e := r.takeWhile (fun c => c != '.')
  match r.drop e.length with
  | '.' :: before => if before.isEmpty then "" else ⟨'.' :: e.reverse⟩
  | _ => ""

/-- Node `path.dirname(p)` (POSIX). -/
def jsDirname (p : String) : String :=
  let r := p.data.reverse
  let r3 := ((r.dropWhile (fun c => c == '/')).dropWhile (fun c => c != '/')).dropWhile
    (fun c => c == '/')
  if r3.isEmpty then (if p.data.head? = some '/' then "/" else ".") else ⟨r3.reverse⟩

/-- Node `path.join(dir, name)` for a clean directory path and a plain entry name. -/
def joinPath (dir name : String) : String := dir ++ "/" ++ name

/-! ### Frontmatter parser

The source matches `/^---\r?\n([\s\S]*?)\r?\n---\r?\n([\s\S]*)$/`: an opening
`---` line, a lazily-matched header block, a closing `---` line, then the body.
-/

/-- Consume the anchored opening `---\r?\n`. -/
def stripOpenDashes : List Char → Option (List Char)
  | '-' :: '-' :: '-' :: '\r' :: '\n' :: rest => some rest
  | '-' :: '-' :: '-' :: '\n' :: rest => some rest
  | _ => none

/-- Try the closing delimiter `\r?\n---\r?\n` at the current position, preferring
to consume a CR when present (as the greedy `\r?` does); returns the body. -/
def matchSepAt : List Char → Option (List Char)
  | '\r' :: '\n' :: '-' :: '-' :: '-' :: '\r' :: '\n' :: rest => some rest
  | '\r' :: '\n' :: '-' :: '-' :: '-' :: '\n' :: rest => some rest
  | '\n' :: '-' :: '-' :: '-' :: '\r' :: '\n' :: rest => some rest
  | '\n' :: '-' :: '-' :: '-' :: '\n' :: rest => some rest
  | _ => none

/-- Lazy scan for the earliest closing delimiter: returns (header, body). -/
def sepSplit : List Char → Option (List Char × List Char)
  | [] => none
  | c :: rest =>
    match matchSepAt (c :: rest) with
    | some body => some ([], body)
    | none => (sepSplit rest).map (fun hb => (c :: hb.1, hb.2))

/-- The full regex match: header text and raw (untrimmed) body, or `none`. -/
def splitFm (content : String) : Option (String × String) :=
  (stripOpenDashes content.data).bind
    (fun rest => (sepSplit rest).map (fun hb => (⟨hb.1⟩, ⟨hb.2⟩)))

/-- Collapse a parsed JS `null` into `none`: the source stores `null` in the
`frontmatter` field in that case and every consumer only tests its truthiness,
so `null` and the absent-header result are indistinguishable downstream. -/
def jsDefined : Yaml → Option Yaml
  | .nullv => none
  | v => some v

/-- `parseFrontmatter`, parameterized by the external YAML parser `p`
(`none` models a thrown parse exception). On a shape mismatch or a parser
exception the original content is returned with a `null` header; on a
successful parse the body is trimmed. -/
def parseFrontmatter (p : String → Option Yaml) (content : String) :
    Option Yaml × String :=
  match splitFm content with
  | none => (none, content)
  | some (header, body) =>
    match p header with
    | none => (none, content)
    | some v => (jsDefined v, jsTrim body)

/-! ### Definition reader -/

/-- `CustomAgentDefinition`: the normalized in-memory record for one agent file.
Fields that the source stores untouched from the header keep the header value
type; `none` models an absent (`undefined`) field. -/
structure AgentDefinition where
  name : Yaml
  type : Option Yaml
  color : Option Yaml
  description : Yaml
  capabilities : List Yaml
  priority : Yaml
  hooks : Option Yaml
  systemPrompt : String
  sourcePath : String
  category : String
  isCustom : Bool
deriving DecidableEq, Repr

/-- `extractCategory`: first path segment of the file relative to the root, or
the literal "custom" for a file sitting directly in the root. -/
def extractCategory (filePath baseDir : String) : String :=
  let relativePath := stripLeadingSepL (jsReplaceFirstL baseDir.data [] filePath.data)
  let parts := splitSepsL relativePath
  if parts.length > 1 then ⟨parts.headD []⟩ else "custom"

/-- JS `Array.isArray(c) ? c : [c]`. -/
def toCapabilities : Yaml → List Yaml
  | .seq xs => xs.toList
  | v => [v]

/-- `parseAgentFile`, with the file content passed in place of `readFileSync`
(the scanner model supplies each file's content). An `error` models the
skip-and-record path: the message is appended to the loader's error list. -/
def parseAgentFileE (yp : String → Option Yaml) (filePath content baseDir : String) :
    Except String AgentDefinition :=
  match parseFrontmatter yp content with
  | (none, _) => .error ("No frontmatter found in " ++ filePath)
  | (some fm, body) =>
    if fm.truthy then
      let description := jsOrY (fm.getField "description")
        (jsOrY (metaField fm "description")
          (.str ("Agent defined in " ++ jsBasename filePath)))
      let capabilities := jsOrY (fm.getField "capabilities")
        (jsOrY (metaField fm "capabilities") (.seq .nil))
      let nameY := jsOrY (fm.getField "name")
        (.str (collapseWs (jsToLower (jsBasenameExt filePath ".md"))))
      if nameY.truthy then
        .ok {
          name := nameY
          type := fm.getField "type"
          color := fm.getField "color"
          description := description
          capabilities := toCapabilities capabilities
          priority := jsOrY (fm.getField "priority") (.str "medium")
          hooks := fm.getField "hooks"
          systemPrompt := body
          sourcePath := filePath
          category := extractCategory filePath baseDir
          isCustom := jsIncludes baseDir ".claude-flow"
        }
      else .error ("Missing name field in " ++ filePath)
    else .error ("No frontmatter found in " ++ filePath)

/-! ### Directory scanner -/

mutual

/-- A directory tree entry (the scanner only distinguishes files and
directories; other dirent kinds are skipped by the source and omitted here). -/
inductive FsEntry where
  | file (name : String) (content : String)
  | dir (name : String) (entries : FsEntries)

/-- A directory listing, in listing order. -/
inductive FsEntries where
  | nil
  | cons (hd : FsEntry) (tl : FsEntries)

end

/-- One resolved root directory with its tree. -/
structure Root where
  path : String
  entries : FsEntries

/-- Eligibility filter of `findMarkdownFiles`: case-insensitive `.md` extension,
not literally `readme.md`, and no "migration" substring in the lowered name. -/
def eligibleMd (name : String) : Bool :=
  jsToLower (jsExtname name) == ".md" &&
  (jsToLower name != "readme.md" && !(jsIncludes (jsToLower name) "migration"))

/-- `findMarkdownFiles`: recursive enumeration in directory-listing order,
returning (full path, content) pairs. -/
def findMd : String → FsEntries → List (String × String)
  | _, .nil => []
  | d, .cons (.file n c) rest =>
    (if eligibleMd n then [(joinPath d n, c)] else []) ++ findMd d rest
  | d, .cons (.dir n es) rest => findMd (joinPath d n) es ++ findMd d rest

/-- Files enumerated under one root. -/
def rootFiles (r : Root) : List (String × String) := findMd r.path r.entries

/-! ### Agent registry (cache)

The JS `Map` is modelled as an association list with unique keys: `get` is the
first (and only) binding, `set` replaces an existing binding in place and
otherwise appends, preserving insertion order exactly as a JS `Map` does.
`searchPaths` resolution is abstracted into the `roots` argument (the
filesystem state), and `Date.now()` into the `now` argument.
-/

/-- JS `Map.prototype.get`. -/
def cacheGet {α : Type} : List (Yaml × α) → Yaml → Option α
  | [], _ => none
  | (k, v) :: rest, key => if k = key then some v else cacheGet rest key

/-- JS `Map.prototype.set`. -/
def cacheSet {α : Type} : List (Yaml × α) → Yaml → α → List (Yaml × α)
  | [], key, v => [(key, v)]
  | (k, w) :: rest, key, v =>
    if k = key then (key, v) :: rest else (k, w) :: cacheSet rest key v

/-- The `loadAgents` insertion step: a parsed definition overwrites an existing
same-name entry only when no entry exists yet or the new definition is custom
(`if (!existing || agent.isCustom)`; cached values are objects, always truthy). -/
def insertAgent (cache : List (Yaml × AgentDefinition)) (a : AgentDefinition) :
    List (Yaml × AgentDefinition) :=
  match cacheGet cache a.name with
  | none => cacheSet cache a.name a
  | some _ => if a.isCustom then cacheSet cache a.name a else cache

/-- Loader state: snapshot, last-refresh timestamp (ms), per-pass error list. -/
structure LoaderState where
  agentCache : List (Yaml × AgentDefinition)
  lastLoadTime : Nat
  loadErrors : List String
deriving DecidableEq, Repr

/-- The fresh state built by the constructor. -/
def initState : LoaderState := { agentCache := [], lastLoadTime := 0, loadErrors := [] }

/-- `this.cacheExpiry`: one minute, in milliseconds. -/
def cacheExpiry : Nat := 60000

/-- One discovery pass body: roots processed in reverse resolution order, each
file parsed and inserted, parse failures appended to the error list. -/
def processPass (yp : String → Option Yaml) (roots : List Root) :
    List (Yaml × AgentDefinition) × List String :=
  roots.reverse.foldl
    (fun acc r =>
      (rootFiles r).foldl
        (fun (acc : List (Yaml × AgentDefinition) × List String) f =>
          match parseAgentFileE yp f.1 f.2 r.path with
          | .ok a => (insertAgent acc.1 a, acc.2)
          | .error e => (acc.1, acc.2 ++ [e]))
        acc)
    ([], [])

/-- The successfully parsed definitions of a pass, in processing order. -/
def passDefs (yp : String → Option Yaml) (roots : List Root) : List AgentDefinition :=
  roots.reverse.flatMap
    (fun r => (rootFiles r).filterMap (fun f => (parseAgentFileE yp f.1 f.2 r.path).toOption))

/-- `loadAgents`: clears the snapshot and error list, reprocesses every root,
and stamps the completion time. -/
def loadAgents (yp : String → Option Yaml) (roots : List Root) (now : Nat)
    (_s : LoaderState) : LoaderState :=
  let (cache, errs) := processPass yp roots
  { agentCache := cache, lastLoadTime := now, loadErrors := errs }

/-- `needsRefresh`: elapsed time strictly above the cache expiry. -/
def needsRefresh (s : LoaderState) (now : Nat) : Bool :=
  now - s.lastLoadTime > cacheExpiry

/-- `ensureLoaded`: reload when the snapshot is empty or stale. -/
def ensureLoaded (yp : String → Option Yaml) (roots : List Root) (now : Nat)
    (s : LoaderState) : LoaderState :=
  if s.agentCache.length = 0 || needsRefresh s now then loadAgents yp roots now s else s

/-- `refresh`: zero the timestamp, then run a full pass (which restamps it). -/
def refresh (yp : String → Option Yaml) (roots : List Root) (now : Nat)
    (s : LoaderState) : LoaderState :=
  loadAgents yp roots now { s with lastLoadTime := 0 }

/-- `getAgent`: ensure freshness, then point lookup (callers pass string names). -/
def getAgentL (yp : String → Option Yaml) (roots : List Root) (now : Nat)
    (s : LoaderState) (name : String) : LoaderState × Option AgentDefinition :=
  let s' := ensureLoaded yp roots now s
  (s', cacheGet s'.agentCache (.str name))

/-- Snapshot values in insertion order. -/
def cacheValues (cache : List (Yaml × AgentDefinition)) : List AgentDefinition :=
  cache.map (fun kv => kv.2)

/-- Stable insertion into a sorted list. -/
def insertSorted {α : Type} (le : α → α → Bool) (x : α) : List α → List α
  | [] => [x]
  | y :: ys => if le x y then x :: y :: ys else y :: insertSorted le x ys

/-- Stable sort by a boolean comparison. The source sorts with
`a.name.localeCompare(b.name)`; on the ASCII names appearing here that agrees
with lexicographic string order. -/
def sortByKey {α : Type} (le : α → α → Bool) (l : List α) : List α :=
  l.foldr (insertSorted le) []

/-- Sort key of a definition: its name. `localeCompare` is only defined for
string names (a non-string name would throw in the source); non-string names
are keyed by the empty string here. -/
def agentNameKey (a : AgentDefinition) : String :=
  match a.name with
  | .str s => s
  | _ => ""

/-- The name-sorted listing produced by `getAllAgents` from a snapshot. -/
def sortAgents (l : List AgentDefinition) : List AgentDefinition :=
  sortByKey (fun a b => decide (agentNameKey a ≤ agentNameKey b)) l

/-- `getAllAgents`: ensure freshness, then the name-sorted snapshot values. -/
def getAllAgentsL (yp : String → Option Yaml) (roots : List Root) (now : Nat)
    (s : LoaderState) : LoaderState × List AgentDefinition :=
  let s' := ensureLoaded yp roots now s
  (s', sortAgents (cacheValues s'.agentCache))

/-! ### Free-text search

`searchAgents` lowers the query, then filters with a predicate that calls
`toLowerCase()` on the name, the description, each capability, and (through
optional chaining) the type. Those calls throw a `TypeError` on non-string
values, modelled by `Except`; `||` and `Array.some` short-circuit left to
right, so a throw happens only if no earlier field already matched.
-/

/-- JS `v.toLowerCase()`: defined on strings, throws otherwise. -/
def jsLowerY : Yaml → Except String String
  | .str s => .ok (jsToLower s)
  | _ => .error "TypeError: toLowerCase is not a function"

/-- `Array.prototype.some` over the capability list, left to right. -/
def anyCapMatches (lowerQuery : String) : List Yaml → Except String Bool
  | [] => .ok false
  | c :: cs => do
    let lc ← jsLowerY c
    if jsIncludes lc lowerQuery then return true else anyCapMatches lowerQuery cs

/-- The `searchAgents` filter predicate for one agent. -/
def matchAgent (lowerQuery : String) (a : AgentDefinition) : Except String Bool := do
  let n ← jsLowerY a.name
  if jsIncludes n lowerQuery then return true
  else
    let d ← jsLowerY a.description
    if jsIncludes d lowerQuery then return true
    else
      let capHit ← anyCapMatches lowerQuery a.capabilities
      if capHit then return true
      else
        match a.type with
        | none => return false
        | some .nullv => return false
        | some (.str t) => return (jsIncludes (jsToLower t) lowerQuery)
        | some _ => .error "TypeError: toLowerCase is not a function"

/-- JS `Array.prototype.filter` with a possibly-throwing predicate. -/
def filterE {α : Type} (p : α → Except String Bool) : List α → Except String (List α)
  | [] => .ok []
  | x :: xs => do
    let b ← p x
    let r ← filterE p xs
    return (if b then x :: r else r)

/-- `searchAgents`: ensure freshness, list, lower the query, filter. -/
def searchAgents (yp : String → Option Yaml) (roots : List Root) (now : Nat)
    (s : LoaderState) (query : String) :
    LoaderState × Except String (List AgentDefinition) :=
  let s' := ensureLoaded yp roots now s
  (s', filterE (matchAgent (jsToLower query)) (sortAgents (cacheValues s'.agentCache)))

/-! ### Per-file validation -/

/-- `AgentValidationResult`. -/
structure ValidationResult where
  valid : Bool
  filePath : String
  errors : List String
  warnings : List String
  agent : Option AgentDefinition
deriving DecidableEq, Repr

/-- JS `a || b` on two possibly-undefined values: `a` when truthy, else `b`. -/
def jsOrO (a b : Option Yaml) : Option Yaml := if truthyO a then a else b

/-- Whether a value is a JS string. -/
def Yaml.isStr : Yaml → Bool
  | .str _ => true
  | _ => false

/-- `hooks.pre && typeof hooks.pre !== 'string'`: present, truthy, not a string. -/
def badHook (h : Option Yaml) : Bool :=
  match h with
  | some v => v.truthy && !v.isStr
  | none => false

/-- The early-return result for an absent or falsy parsed header. -/
def noFmResult (filePath : String) : ValidationResult :=
  { valid := false, filePath := filePath
    errors := ["No valid YAML frontmatter found (must be enclosed in ---)"]
    warnings := [], agent := none }

/-- The error and warning lists accumulated by the sequential field checks of
`validateAgentFile`, in push order (name error, hook errors; description,
capabilities, type, body warnings). -/
def validationChecks (filePath : String) (fm : Yaml) (body : String) :
    List String × List String :=
  let nameErrs :=
    if !(truthyO (fm.getField "name")) && jsBasenameExt filePath ".md" == "" then
      ["Missing required field: name"]
    else []
  let descWarns :=
    if !(truthyO (fm.getField "description")) && !(truthyO (metaField fm "description"))
    then ["Missing description field (recommended)"]
    else []
  let capsJ := jsOrO (fm.getField "capabilities") (metaField fm "capabilities")
  let capsWarns :=
    if !(truthyO capsJ) || decide (capsJ = some (.seq .nil)) then
      ["No capabilities defined"]
    else []
  let typeWarns :=
    if !(truthyO (fm.getField "type")) then ["No type specified (will use \"custom\")"]
    else []
  let hooksErrs :=
    match fm.getField "hooks" with
    | some hv =>
      if hv.truthy then
        (if badHook (hv.getField "pre") then ["hooks.pre must be a string"] else []) ++
        (if badHook (hv.getField "post") then ["hooks.post must be a string"] else [])
      else []
    | none => []
  let bodyWarns :=
    if body == "" || jsTrim body == "" then ["Empty system prompt (markdown body)"]
    else []
  (nameErrs ++ hooksErrs, descWarns ++ capsWarns ++ typeWarns ++ bodyWarns)

/-- `validateAgentFile`, with the filesystem abstracted as a partial map from
paths to contents (`existsSync` + `readFileSync`). The source pushes errors and
flips `valid` sequentially; here the error and warning lists are assembled in
the same order and `valid` is their emptiness, which is equivalent since every
error push sets `valid = false` and nothing else does. The nested
`parseAgentFile` call re-reads the same path, hence the same content; its
side effect of appending to the loader's error list does not affect this
result and is dropped. The source's surrounding catch-all is unreachable in
the model because all the steps above are total. -/
def validateAgentFile (yp : String → Option Yaml) (fs : String → Option String)
    (filePath : String) : ValidationResult :=
  match fs filePath with
  | none =>
    { valid := false, filePath := filePath, errors := ["File not found: " ++ filePath]
      warnings := [], agent := none }
  | some content =>
    match parseFrontmatter yp content with
    | (none, _) => noFmResult filePath
    | (some fm, body) =>
      if fm.truthy then
        let checks := validationChecks filePath fm body
        if checks.1.isEmpty then
          match parseAgentFileE yp filePath content (jsDirname filePath) with
          | .ok a =>
            { valid := true, filePath := filePath, errors := checks.1, warnings := checks.2
              agent := some a }
          | .error _ =>
            { valid := false, filePath := filePath
              errors := checks.1 ++ ["Failed to parse agent definition"], warnings := checks.2
              agent := none }
        else
          { valid := false, filePath := filePath, errors := checks.1, warnings := checks.2
            agent := none }
      else noFmResult filePath

/-! ### Unified registry -/

/-- A fixed, code-defined built-in agent record. -/
structure BuiltInAgent where
  name : String
  type : String
  description : String
  capabilities : List String
  isBuiltIn : Bool
deriving DecidableEq, Repr

/-- The hardcoded built-in catalog. -/
def BUILT_IN_AGENTS : List BuiltInAgent :=
  [ { name := "coordinator", type := "coordinator"
      description := "Orchestrates tasks and manages workflow between agents"
      capabilities := ["Task Management", "Workflow Orchestration", "Resource Allocation",
        "Coordination"]
      isBuiltIn := true }
  , { name := "researcher", type := "researcher"
      description := "Gathers and analyzes information from various sources"
      capabilities := ["Research", "Analysis", "Information Gathering", "Documentation"]
      isBuiltIn := true }
  , { name := "coder", type := "coder"
      description := "Writes, reviews, and maintains code implementations"
      capabilities := ["Code Generation", "Implementation", "Refactoring", "Debugging"]
      isBuiltIn := true }
  , { name := "analyst", type := "analyst"
      description := "Performs data analysis and generates insights"
      capabilities := ["Data Analysis", "Pattern Recognition", "Reporting", "Optimization"]
      isBuiltIn := true }
  , { name := "architect", type := "architect"
      description := "Designs system architecture and technical solutions"
      capabilities := ["System Design", "Architecture", "Technical Planning", "Integration"]
      isBuiltIn := true }
  , { name := "tester", type := "tester"
      description := "Creates and executes tests, ensures quality"
      capabilities := ["Testing", "Validation", "Quality Assurance", "Performance Testing"]
      isBuiltIn := true }
  , { name := "reviewer", type := "reviewer"
      description := "Reviews code and documentation for quality and standards"
      capabilities := ["Code Review", "Documentation Review", "Standards Compliance",
        "Feedback"]
      isBuiltIn := true }
  , { name := "optimizer", type := "optimizer"
      description := "Optimizes performance and resource utilization"
      capabilities := ["Performance Optimization", "Resource Management", "Profiling",
        "Tuning"]
      isBuiltIn := true }
  , { name := "general", type := "general"
      description := "General-purpose agent for various tasks"
      capabilities := ["Research", "Analysis", "Code Generation"]
      isBuiltIn := true } ]

/-- Lookup in `this.builtInAgents` (a Map keyed by name; the nine names are
distinct, so the first match is the only one). -/
def builtinGet (name : String) : Option BuiltInAgent :=
  BUILT_IN_AGENTS.find? (fun b => b.name == name)

/-- A value stored in the unified registry's merged map: the source mixes
built-in records and discovered definitions in one untyped map. -/
inductive AnyAgent where
  | builtin (b : BuiltInAgent)
  | custom (d : AgentDefinition)
deriving DecidableEq, Repr

/-- The `name` of a merged entry, as the JS map key it is stored under. -/
def AnyAgent.nameY : AnyAgent → Yaml
  | .builtin b => .str b.name
  | .custom d => d.name

/-- The `capabilities` of a merged entry (built-in capabilities are strings). -/
def AnyAgent.capabilitiesY : AnyAgent → List Yaml
  | .builtin b => b.capabilities.map .str
  | .custom d => d.capabilities

/-- `UnifiedAgentRegistry.getAgent`, as a function of the loader's current
snapshot (the `ensureInitialized`/`ensureLoaded` threading only selects which
snapshot that is): discovered definitions take precedence, then built-ins. -/
def uniGetAgent (cache : List (Yaml × AgentDefinition)) (name : String) : Option AnyAgent :=
  match cacheGet cache (.str name) with
  | some d => some (.custom d)
  | none => (builtinGet name).map .builtin

/-- The hardcoded default capabilities for unknown agents. -/
def defaultCapabilities : List Yaml :=
  [.str "Research", .str "Analysis", .str "Code Generation"]

/-- `getAgentCapabilities`: the resolved agent's capabilities (discovered or
built-in), else the default sequence. -/
def uniGetAgentCapabilities (cache : List (Yaml × AgentDefinition)) (name : String) :
    List Yaml :=
  match uniGetAgent cache name with
  | some a => a.capabilitiesY
  | none => defaultCapabilities

/-- The unified registry's built-in map, in construction order. -/
def builtinMap : List (Yaml × AnyAgent) :=
  BUILT_IN_AGENTS.foldl (fun m b => cacheSet m (.str b.name) (.builtin b)) []

/-- Sort key of a merged entry (see `agentNameKey`). -/
def anyNameKey (a : AnyAgent) : String :=
  match a.nameY with
  | .str s => s
  | _ => ""

/-- Name-sorted merged listing. -/
def sortAny (l : List AnyAgent) : List AnyAgent :=
  sortByKey (fun a b => decide (anyNameKey a ≤ anyNameKey b)) l

/-- `UnifiedAgentRegistry.getAllAgents` as a function of the discovered
definitions `ds` (the loader's listing): built-ins first, discovered
definitions overlaid by name, then sorted by name. -/
def uniGetAllAgents (ds : List AgentDefinition) : List AnyAgent :=
  let m := ds.foldl (fun m d => cacheSet m d.name (.custom d)) builtinMap
  sortAny (m.map (fun kv => kv.2))

/-- `UnifiedAgentRegistry.getStats` result. -/
structure UniStats where
  totalAgents : Nat
  builtInCount : Nat
  customCount : Nat
  overriddenBuiltIns : List String
deriving DecidableEq, Repr

/-- `UnifiedAgentRegistry.getStats` as a function of the discovered
definitions; `builtInAgents.size` is the catalog length (distinct names). -/
def uniGetStats (ds : List AgentDefinition) : UniStats :=
  let customNames := ds.map (fun d => d.name)
  let overridden := (BUILT_IN_AGENTS.map (fun b => b.name)).filter
    (fun n => customNames.any (fun y => decide (y = Yaml.str n)))
  { totalAgents := BUILT_IN_AGENTS.length + ds.length - overridden.length
    builtInCount := BUILT_IN_AGENTS.length
    customCount := ds.length
    overriddenBuiltIns := overridden }

/-! ### Modelled YAML interop parser

Used only to instantiate concrete inputs in witnesses and counterexamples; the
theorems about the parser and reader quantify over an arbitrary parse function
wherever possible.
-/

/-- Build a header sequence from a list. -/
def YamlSeq.ofList : List Yaml → YamlSeq
  | [] => .nil
  | x :: xs => .cons x (YamlSeq.ofList xs)

/-- Build a header mapping from a list of bindings. -/
def YamlMap.ofList : List (String × Yaml) → YamlMap
  | [] => .nil
  | (k, v) :: kvs => .cons k v (YamlMap.ofList kvs)

/-- Split at newline characters, keeping empty fields. -/
def splitNlAux : List Char → List Char → List (List Char)
  | [], cur => [cur.reverse]
  | c :: cs, cur =>
    if c = '\n' then cur.reverse :: splitNlAux cs [] else splitNlAux cs (c :: cur)

/-- Split into lines, tolerating CRLF line breaks. -/
def splitLines (s : String) : List String :=
  (splitNlAux s.data []).map
    (fun l => if l.getLast? == some '\r' then ⟨l.dropLast⟩ else ⟨l⟩)

/-- Decimal digit-run value. -/
def digitsValAux : List Char → Nat → Option Nat
  | [], acc => some acc
  | c :: cs, acc => if c.isDigit then digitsValAux cs (acc * 10 + (c.toNat - 48)) else none

/-- Integer literal (optional minus, one or more decimal digits). -/
def intOfString? (s : String) : Option Int :=
  match s.data with
  | [] => none
  | '-' :: rest =>
    if rest.isEmpty then none else (digitsValAux rest 0).map (fun n => -(n : Int))
  | l => (digitsValAux l 0).map (fun n => (n : Int))

/-- Strip one layer of matching quotes. -/
def unquote (s : String) : String :=
  match s.data with
  | '"' :: rest => if rest.getLast? == some '"' then ⟨rest.dropLast⟩ else s
  | '\'' :: rest => if rest.getLast? == some '\'' then ⟨rest.dropLast⟩ else s
  | _ => s

/-- A YAML scalar: null, boolean, integer, or (possibly quoted) string. -/
def parseScalar (v : String) : Yaml :=
  let t := jsTrim v
  if t == "null" || t == "~" || t == "" then .nullv
  else if t == "true" then .bool true
  else if t == "false" then .bool false
  else
    match intOfString? t with
    | some n => .num n
    | none => .str (unquote t)

/-- The line starts with a space (belongs to the pending block). -/
def isIndented (l : String) : Bool := startsWithL l.data [' ']

/-- Split at the first `": "` occurrence. -/
def splitFirstColonSp : List Char → Option (List Char × List Char)
  | [] => none
  | ':' :: ' ' :: rest => some ([], rest)
  | c :: rest => (splitFirstColonSp rest).map (fun p => (c :: p.1, p.2))

/-- Classify an unindented line as `key: value` or a block-opening `key:`. -/
def topPair? (l : String) : Option (String × Option String) :=
  if isIndented l then none
  else
    match splitFirstColonSp l.data with
    | some (k, v) => if k.isEmpty then none else some (⟨k⟩, some ⟨v⟩)
    | none =>
      if l.data.getLast? == some ':' && decide (l.data.length > 1) then
        some (⟨l.data.dropLast⟩, none)
      else none

/-- An indented `- item` sequence line, yielding the item text. -/
def seqItem? (l : String) : Option String :=
  if isIndented l then
    let t := jsTrim l
    if startsWithL t.data ['-', ' '] then some ⟨t.data.drop 2⟩ else none
  else none

/-- Close a pending `key:` block: no items means the null value. -/
def finishVal : List Yaml → Yaml
  | [] => .nullv
  | xs => .seq (YamlSeq.ofList xs)

/-- Fold over the document lines with a pending block key and accumulated
bindings; `none` models a parse exception. -/
def pymAux : List String → Option (String × List Yaml) → List (String × Yaml) →
    Option (List (String × Yaml))
  | [], none, acc => some acc
  | [], some (k, its), acc => some (acc ++ [(k, finishVal its)])
  | l :: rest, pend, acc =>
    match seqItem? l with
    | some item =>
      match pend with
      | some (k, its) => pymAux rest (some (k, its ++ [parseScalar item])) acc
      | none => none
    | none =>
      if isIndented l then none
      else
        let acc' :=
          match pend with
          | some (k, its) => acc ++ [(k, finishVal its)]
          | none => acc
        match topPair? l with
        | some (k, some v) => pymAux rest none (acc' ++ [(k, parseScalar v)])
        | some (k, none) => pymAux rest (some (k, [])) acc'
        | none => none

/-- Modelled from the spec: the external structured-text (YAML) interop parser,
a third-party library that is not part of this repository. The spec requires
only "any structured text serialization with nested maps, sequences, and
scalars". This model covers the document shapes exercised by the agent headers
described in the spec: top-level `key: value` pairs, a `key:` line followed by
indented `- item` sequence lines (or by nothing, yielding the null value),
single-scalar documents (including the null scalar), and the blank document
(null); anything else is `none`, modelling a thrown parse exception. -/
def parseYamlModel (s : String) : Option Yaml :=
  let ls := (splitLines s).filter (fun l => jsTrim l != "")
  match ls with
  | [] => some .nullv
  | l0 :: _ =>
    if (topPair? l0).isSome then
      (pymAux ls none []).map (fun kvs => .map (YamlMap.ofList kvs))
    else
      match ls with
      | [l] => if isIndented l then none else some (parseScalar l)
      | _ => none

/-! ### Map and insertion lemmas -/

/-- Keys of an association-list map. -/
def cacheKeys {α : Type} (m : List (Yaml × α)) : List Yaml := m.map Prod.fst

theorem cacheGet_cacheSet_self {α : Type} (m : List (Yaml × α)) (k : Yaml) (v : α) :
    cacheGet (cacheSet m k v) k = some v := by
  induction m with
  | nil => simp [cacheGet, cacheSet]
  | cons hd tl ih =>
    obtain ⟨k', w⟩ := hd
    by_cases h : k' = k
    · simp [cacheGet, cacheSet, h]
    · simp [cacheGet, cacheSet, h, ih]

theorem cacheGet_cacheSet_ne {α : Type} (m : List (Yaml × α)) (k k' : Yaml) (v : α)
    (h : k' ≠ k) : cacheGet (cacheSet m k v) k' = cacheGet m k' := by
  have hkk : ¬(k = k') := fun e => h e.symm
  induction m with
  | nil => simp [cacheGet, cacheSet, hkk]
  | cons hd tl ih =>
    obtain ⟨k'', w⟩ := hd
    by_cases h2 : k'' = k
    · subst h2
      simp [cacheGet, cacheSet, hkk]
    · simp only [cacheSet, if_neg h2, cacheGet]
      by_cases h3 : k'' = k'
      · simp [h3]
      · simp [h3, ih]

theorem mem_cacheKeys_cacheSet {α : Type} (m : List (Yaml × α)) (k k'' : Yaml) (v : α)
    (h : k'' ∈ cacheKeys (cacheSet m k v)) : k'' ∈ cacheKeys m ∨ k'' = k := by
  induction m with
  | nil =>
    simp [cacheKeys, cacheSet] at h
    exact Or.inr h
  | cons hd tl ih =>
    obtain ⟨k', w⟩ := hd
    by_cases h2 : k' = k
    · subst h2
      simp [cacheKeys, cacheSet] at h
      rcases h with h | h
      · exact Or.inr h
      · exact Or.inl (by simp [cacheKeys, h])
    · simp only [cacheSet, if_neg h2, cacheKeys, List.map_cons, List.mem_cons] at h
      rcases h with h | h
      · exact Or.inl (by simp [cacheKeys, h])
      · rcases ih h with h3 | h3
        · exact Or.inl (by simp [cacheKeys] at h3 ⊢; exact Or.inr h3)
        · exact Or.inr h3

theorem nodup_cacheKeys_cacheSet {α : Type} (m : List (Yaml × α)) (k : Yaml) (v : α)
    (h : (cacheKeys m).Nodup) : (cacheKeys (cacheSet m k v)).Nodup := by
  induction m with
  | nil => simp [cacheKeys, cacheSet]
  | cons hd tl ih =>
    obtain ⟨k', w⟩ := hd
    simp only [cacheKeys, List.map_cons, List.nodup_cons] at h
    by_cases h2 : k' = k
    · subst h2
      simpa [cacheKeys, cacheSet, List.nodup_cons] using h
    · simp only [cacheSet, if_neg h2, cacheKeys, List.map_cons, List.nodup_cons]
      refine ⟨fun hmem => ?_, ih h.2⟩
      rcases mem_cacheKeys_cacheSet tl k k' v hmem with h3 | h3
      · exact h.1 h3
      · exact h2 h3

theorem cacheGet_mem {α : Type} (m : List (Yaml × α)) (k : Yaml) (v : α)
    (h : cacheGet m k = some v) : (k, v) ∈ m := by
  induction m with
  | nil => simp [cacheGet] at h
  | cons hd tl ih =>
    obtain ⟨k', w⟩ := hd
    by_cases h2 : k' = k
    · subst h2
      simp only [cacheGet, if_pos rfl] at h
      obtain rfl := Option.some.inj h
      exact List.mem_cons_self _ _
    · simp only [cacheGet, if_neg h2] at h
      exact List.mem_cons_of_mem _ (ih h)

/-! ### `loadAgents` insertion lemmas -/

theorem insertAgent_custom_get (m : List (Yaml × AgentDefinition)) (a : AgentDefinition)
    (h : a.isCustom = true) : cacheGet (insertAgent m a) a.name = some a := by
  unfold insertAgent
  cases hg : cacheGet m a.name with
  | none => exact cacheGet_cacheSet_self m a.name a
  | some x => simp [h, cacheGet_cacheSet_self]

theorem insertAgent_get_ne (m : List (Yaml × AgentDefinition)) (a : AgentDefinition)
    (n : Yaml) (h : n ≠ a.name) : cacheGet (insertAgent m a) n = cacheGet m n := by
  unfold insertAgent
  cases hg : cacheGet m a.name with
  | none => exact cacheGet_cacheSet_ne m a.name n a h
  | some x =>
    by_cases hc : a.isCustom
    · simp [hc, cacheGet_cacheSet_ne m a.name n a h]
    · simp [hc]

theorem insertAgent_keep (m : List (Yaml × AgentDefinition)) (a : AgentDefinition) (x : AgentDefinition)
    (hg : cacheGet m a.name = some x) (hc : a.isCustom = false) : insertAgent m a = m := by
  unfold insertAgent
  simp [hg, hc]

theorem nodup_cacheKeys_insertAgent (m : List (Yaml × AgentDefinition)) (a : AgentDefinition)
    (h : (cacheKeys m).Nodup) : (cacheKeys (insertAgent m a)).Nodup := by
  unfold insertAgent
  cases hg : cacheGet m a.name with
  | none => exact nodup_cacheKeys_cacheSet m a.name a h
  | some x =>
    by_cases hc : a.isCustom
    · simpa [hc] using nodup_cacheKeys_cacheSet m a.name a h
    · simpa [hc] using h

theorem nodup_cacheKeys_foldl (L : List AgentDefinition) :
    ∀ m : List (Yaml × AgentDefinition), (cacheKeys m).Nodup →
    (cacheKeys (L.foldl insertAgent m)).Nodup := by
  induction L with
  | nil => intro m h; simpa using h
  | cons d L ih =>
    intro m h
    simpa using ih (insertAgent m d) (nodup_cacheKeys_insertAgent m d h)

/-- An entry already present for `n` survives processing any run of definitions
none of which is a custom definition named `n`. -/
theorem cacheGet_foldl_stable (L : List AgentDefinition) :
    ∀ m : List (Yaml × AgentDefinition), ∀ n : Yaml, ∀ x : AgentDefinition,
    cacheGet m n = some x → (∀ d ∈ L, d.name = n → d.isCustom = false) →
    cacheGet (L.foldl insertAgent m) n = some x := by
  induction L with
  | nil => intro m n x hg _; simpa using hg
  | cons d L ih =>
    intro m n x hg hall
    simp only [List.foldl_cons]
    refine ih (insertAgent m d) n x ?_ (fun e he => hall e (List.mem_cons_of_mem _ he))
    by_cases hn : d.name = n
    · have hc : d.isCustom = false := hall d (List.mem_cons_self _ _) hn
      have hg' : cacheGet m d.name = some x := by rw [hn]; exact hg
      rw [insertAgent_keep m d x hg' hc]
      exact hg
    · rw [insertAgent_get_ne m d n (fun h => hn h.symm)]
      exact hg

/-- A custom definition bearing the name `n`, the override winner predicate. -/
def isCustomNamed (n : Yaml) (d : AgentDefinition) : Bool :=
  decide (d.name = n) && d.isCustom

/-- The last custom definition named `n` in the processed run is the entry the
snapshot ends up with, whatever was present before. -/
theorem cacheGet_foldl_lastCustom (n : Yaml) (L : List AgentDefinition) :
    ∀ m : List (Yaml × AgentDefinition), ∀ c : AgentDefinition,
    (L.filter (isCustomNamed n)).getLast? = some c →
    cacheGet (L.foldl insertAgent m) n = some c := by
  induction L with
  | nil => intro m c h; simp at h
  | cons d L ih =>
    intro m c h
    simp only [List.foldl_cons]
    by_cases hd : isCustomNamed n d = true
    · have hfc : (d :: L).filter (isCustomNamed n) = d :: L.filter (isCustomNamed n) :=
        List.filter_cons_of_pos hd
      rw [hfc] at h
      cases hL : L.filter (isCustomNamed n) with
      | nil =>
        rw [hL, List.getLast?_singleton] at h
        obtain rfl := Option.some.inj h
        have hparts := (Bool.and_eq_true _ _).mp hd
        have hname : d.name = n := of_decide_eq_true hparts.1
        have hcust : d.isCustom = true := hparts.2
        have hget : cacheGet (insertAgent m d) n = some d := by
          rw [← hname]; exact insertAgent_custom_get m d hcust
        refine cacheGet_foldl_stable L (insertAgent m d) n d hget ?_
        intro e he hen
        by_contra hec
        have hmem : e ∈ L.filter (isCustomNamed n) := by
          rw [List.mem_filter]
          refine ⟨he, ?_⟩
          unfold isCustomNamed
          rw [Bool.and_eq_true]
          exact ⟨decide_eq_true hen, by simpa using hec⟩
        rw [hL] at hmem
        simp at hmem
      | cons f fs =>
        have h2 : (d :: L.filter (isCustomNamed n)).getLast? =
            (L.filter (isCustomNamed n)).getLast? := by
          rw [hL]; exact List.getLast?_cons_cons
        rw [h2] at h
        exact ih (insertAgent m d) c h
    · have hfc : (d :: L).filter (isCustomNamed n) = L.filter (isCustomNamed n) :=
        List.filter_cons_of_neg hd
      rw [hfc] at h
      exact ih (insertAgent m d) c h

/-! ### The pass as a fold over its parsed definitions -/

theorem files_foldl_fst (yp : String → Option Yaml) (bd : String)
    (files : List (String × String)) :
    ∀ acc : List (Yaml × AgentDefinition) × List String,
    (files.foldl
      (fun (acc : List (Yaml × AgentDefinition) × List String) f =>
        match parseAgentFileE yp f.1 f.2 bd with
        | .ok a => (insertAgent acc.1 a, acc.2)
        | .error e => (acc.1, acc.2 ++ [e])) acc).1
    = (files.filterMap (fun f => (parseAgentFileE yp f.1 f.2 bd).toOption)).foldl
        insertAgent acc.1 := by
  induction files with
  | nil => intro acc; simp
  | cons f fs ih =>
    intro acc
    simp only [List.foldl_cons, List.filterMap_cons]
    cases hp : parseAgentFileE yp f.1 f.2 bd with
    | ok a => simp [hp, Except.toOption, ih]
    | error e => simp [hp, Except.toOption, ih]

theorem roots_foldl_fst (yp : String → Option Yaml) (rs : List Root) :
    ∀ acc : List (Yaml × AgentDefinition) × List String,
    (rs.foldl
      (fun acc r =>
        (rootFiles r).foldl
          (fun (acc : List (Yaml × AgentDefinition) × List String) f =>
            match parseAgentFileE yp f.1 f.2 r.path with
            | .ok a => (insertAgent acc.1 a, acc.2)
            | .error e => (acc.1, acc.2 ++ [e]))
          acc) acc).1
    = (rs.flatMap (fun r => (rootFiles r).filterMap
        (fun f => (parseAgentFileE yp f.1 f.2 r.path).toOption))).foldl insertAgent acc.1 := by
  induction rs with
  | nil => intro acc; simp
  | cons r rs ih =>
    intro acc
    simp only [List.foldl_cons, List.flatMap_cons, List.foldl_append]
    rw [ih, files_foldl_fst yp r.path (rootFiles r) acc]

theorem processPass_fst (yp : String → Option Yaml) (roots : List Root) :
    (processPass yp roots).1 = (passDefs yp roots).foldl insertAgent [] := by
  unfold processPass passDefs
  exact roots_foldl_fst yp roots.reverse ([], [])

theorem loadAgents_cache (yp : String → Option Yaml) (roots : List Root) (now : Nat)
    (s : LoaderState) :
    (loadAgents yp roots now s).agentCache = (passDefs yp roots).foldl insertAgent [] := by
  have h := processPass_fst yp roots
  unfold loadAgents
  rcases hp : processPass yp roots with ⟨cache, errs⟩
  rw [hp] at h
  simpa using h

theorem loadAgents_lastLoadTime (yp : String → Option Yaml) (roots : List Root) (now : Nat)
    (s : LoaderState) : (loadAgents yp roots now s).lastLoadTime = now := by
  unfold loadAgents
  rcases processPass yp roots with ⟨cache, errs⟩
  rfl

/-- Nonempty lists all of whose elements are `c` end in `c`. -/
theorem getLast?_all_eq {α : Type} (l : List α) (c : α) (hne : l ≠ [])
    (hall : ∀ x ∈ l, x = c) : l.getLast? = some c := by
  induction l with
  | nil => exact absurd rfl hne
  | cons a l ih =>
    cases l with
    | nil => rw [List.getLast?_singleton]; exact congrArg some (hall a (by simp))
    | cons b l' =>
      rw [List.getLast?_cons_cons]
      exact ih (by simp) (fun x hx => hall x (List.mem_cons_of_mem _ hx))

/-! ### Concrete fixtures for witnesses and counterexamples -/

/-- A custom root and a project root whose files share the name "x". -/
def rootsW : List Root :=
  [ Root.mk "/p/.claude-flow/agents"
      (.cons (.file "x.md" "---\nname: x\ncolor: red\n---\ncustom body") .nil)
  , Root.mk "/p/.claude/agents"
      (.cons (.file "x.md" "---\nname: x\n---\nproj body") .nil) ]

/-- The definition parsed from the custom-root file of `rootsW`. -/
def xCustomW : AgentDefinition :=
  { name := .str "x", type := none, color := some (.str "red")
    description := .str "Agent defined in x.md", capabilities := []
    priority := .str "medium", hooks := none, systemPrompt := "custom body"
    sourcePath := "/p/.claude-flow/agents/x.md", category := "custom", isCustom := true }

/-- One custom root holding two files that both declare the name "x". -/
def rootsW9 : List Root :=
  [ Root.mk "/p/.claude-flow/agents"
      (.cons (.file "a.md" "---\nname: x\ncolor: one\n---\nbody a")
        (.cons (.file "b.md" "---\nname: x\ncolor: two\n---\nbody b") .nil)) ]

/-- The definition parsed from the later-processed file `b.md` of `rootsW9`. -/
def xLastW : AgentDefinition :=
  { name := .str "x", type := none, color := some (.str "two")
    description := .str "Agent defined in b.md", capabilities := []
    priority := .str "medium", hooks := none, systemPrompt := "body b"
    sourcePath := "/p/.claude-flow/agents/b.md", category := "custom", isCustom := true }

/-! ### Claim C1 -/

/-- C1: every discovery pass yields a snapshot mapping each name to at most one
definition (its key list is duplicate-free), and whenever the pass's parsed
definitions contain exactly one custom definition `c` with name `n` — the
custom-root file — alongside any project-root definitions of the same name, the
retained entry for `n` is `c` (so `isCustom = true` with the custom file's
fields), for every ordering of roots and of files within the pass. -/
theorem c1_unique_and_custom_override (yp : String → Option Yaml) (roots : List Root)
    (now : Nat) (s : LoaderState) :
    (cacheKeys (loadAgents yp roots now s).agentCache).Nodup ∧
    (∀ (n : Yaml) (c : AgentDefinition),
      c ∈ passDefs yp roots → c.name = n → c.isCustom = true →
      (∀ d ∈ passDefs yp roots, d.name = n → d.isCustom = true → d = c) →
      cacheGet (loadAgents yp roots now s).agentCache n = some c) := by
  constructor
  · rw [loadAgents_cache]
    exact nodup_cacheKeys_foldl _ [] (by simp [cacheKeys])
  · intro n c hc hname hcust huniq
    rw [loadAgents_cache]
    apply cacheGet_foldl_lastCustom
    have hcn : isCustomNamed n c = true := by
      unfold isCustomNamed
      rw [Bool.and_eq_true]
      exact ⟨decide_eq_true hname, hcust⟩
    have hmemf : c ∈ (passDefs yp roots).filter (isCustomNamed n) :=
      List.mem_filter.mpr ⟨hc, hcn⟩
    refine getLast?_all_eq _ c (List.ne_nil_of_mem hmemf) ?_
    intro x hx
    rw [List.mem_filter] at hx
    have h2 := (Bool.and_eq_true _ _).mp hx.2
    exact huniq x hx.1 (of_decide_eq_true h2.1) h2.2

/-- Witness for C1: on `rootsW` the snapshot has unique names and retains the
custom file's definition for "x". -/
theorem c1_unique_and_custom_override_witness :
    (cacheKeys (loadAgents parseYamlModel rootsW 0 initState).agentCache).Nodup ∧
    cacheGet (loadAgents parseYamlModel rootsW 0 initState).agentCache (.str "x") =
      some xCustomW := by
  refine ⟨(c1_unique_and_custom_override parseYamlModel rootsW 0 initState).1, ?_⟩
  exact (c1_unique_and_custom_override parseYamlModel rootsW 0 initState).2 (.str "x")
    xCustomW (by decide) (by decide) (by decide) (by decide)

/-! ### Claim C9 -/

/-- C9: a custom definition always overwrites the existing same-name entry —
including another custom entry — so within one pass the snapshot's entry for a
name `n` is the last-processed custom definition named `n`, whenever any custom
definition with that name occurs in the pass. -/
theorem c9_last_custom_wins (yp : String → Option Yaml) (roots : List Root) (now : Nat)
    (s : LoaderState) :
    (∀ (m : List (Yaml × AgentDefinition)) (a : AgentDefinition), a.isCustom = true →
      cacheGet (insertAgent m a) a.name = some a) ∧
    (∀ (n : Yaml) (c : AgentDefinition),
      ((passDefs yp roots).filter (isCustomNamed n)).getLast? = some c →
      cacheGet (loadAgents yp roots now s).agentCache n = some c) := by
  refine ⟨insertAgent_custom_get, ?_⟩
  intro n c h
  rw [loadAgents_cache]
  exact cacheGet_foldl_lastCustom n (passDefs yp roots) [] c h

/-- Witness for C9: with two custom files both named "x", the later file wins. -/
theorem c9_last_custom_wins_witness :
    cacheGet (loadAgents parseYamlModel rootsW9 0 initState).agentCache (.str "x") =
      some xLastW :=
  (c9_last_custom_wins parseYamlModel rootsW9 0 initState).2 (.str "x") xLastW (by decide)

/-! ### Claim C2 -/

/-- An agent file whose header carries the unrecognized priority "urgent". -/
def urgentContent : String := "---\nname: a\npriority: urgent\n---\nbody"

/-- The definition the reader produces for `urgentContent`. -/
def urgentA : AgentDefinition :=
  { name := .str "a", type := none, color := none
    description := .str "Agent defined in a.md", capabilities := []
    priority := .str "urgent", hooks := none, systemPrompt := "body"
    sourcePath := "/p/.claude/agents/a.md", category := "custom", isCustom := false }

/-- C2 counterexample: the reader keeps the unrecognized truthy header priority
"urgent" unchanged — it is not coerced to "medium" and lies outside the four
enumerated levels. -/
theorem c2_priority_cex :
    parseAgentFileE parseYamlModel "/p/.claude/agents/a.md" urgentContent
      "/p/.claude/agents" = .ok urgentA ∧
    urgentA.priority = .str "urgent" ∧
    urgentA.priority ∉ [Yaml.str "low", .str "medium", .str "high", .str "critical"] := by
  decide

/-- A successfully parsed header value other than `null` is returned as is. -/
theorem jsDefined_of_ne_null (v : Yaml) (h : v ≠ .nullv) : jsDefined v = some v := by
  cases v <;> first | rfl | exact absurd rfl h

theorem jsOrY_none (b : Yaml) : jsOrY none b = b := rfl

theorem jsOrY_some_truthy (v b : Yaml) (h : v.truthy = true) : jsOrY (some v) b = v := by
  show (if v.truthy = true then v else b) = v
  simp [h]

theorem jsOrY_some_falsy (v b : Yaml) (h : v.truthy = false) : jsOrY (some v) b = b := by
  show (if v.truthy = true then v else b) = b
  simp [h]

/-- C2 amended: every definition the reader produces has a truthy priority that
is either the literal "medium" (when the header's priority field is missing or
falsy) or the header's own truthy priority value, which is not restricted to
the four enumerated levels. -/
theorem c2_priority_amended (yp : String → Option Yaml) (filePath content baseDir : String)
    (a : AgentDefinition)
    (h : parseAgentFileE yp filePath content baseDir = .ok a) :
    a.priority.truthy = true ∧
    (a.priority = .str "medium" ∨
      ∃ fm, (parseFrontmatter yp content).1 = some fm ∧
        fm.getField "priority" = some a.priority) := by
  unfold parseAgentFileE at h
  rcases hpf : parseFrontmatter yp content with ⟨fmO, body⟩
  rw [hpf] at h
  cases fmO with
  | none => simp at h
  | some fm =>
    by_cases ht : fm.truthy
    · simp only [ht, if_true] at h
      by_cases hn : (jsOrY (fm.getField "name")
          (.str (collapseWs (jsToLower (jsBasenameExt filePath ".md"))))).truthy
      · simp only [hn, if_true, Except.ok.injEq] at h
        subst h
        cases hp : fm.getField "priority" with
        | none =>
          rw [jsOrY_none]
          exact ⟨rfl, Or.inl rfl⟩
        | some v =>
          by_cases hv : v.truthy
          · rw [jsOrY_some_truthy v _ hv]
            exact ⟨hv, Or.inr ⟨fm, rfl, hp⟩⟩
          · have hv' : v.truthy = false := by simpa using hv
            rw [jsOrY_some_falsy v _ hv']
            exact ⟨rfl, Or.inl rfl⟩
      · simp [hn] at h
    · simp [ht] at h

/-- Witness for the amended C2 at the "urgent" fixture. -/
theorem c2_priority_amended_witness :
    parseAgentFileE parseYamlModel "/p/.claude/agents/a.md" urgentContent
      "/p/.claude/agents" = .ok urgentA ∧
    urgentA.priority.truthy = true := by
  have he : parseAgentFileE parseYamlModel "/p/.claude/agents/a.md" urgentContent
      "/p/.claude/agents" = .ok urgentA := by decide
  exact ⟨he, (c2_priority_amended parseYamlModel "/p/.claude/agents/a.md" urgentContent
    "/p/.claude/agents" urgentA he).1⟩

/-! ### Claim C7 -/

/-- A document whose header block is the null scalar. -/
def nullHeaderDoc : String := "---\nnull\n---\n  hi  "

/-- C7 counterexample: the header block of `nullHeaderDoc` parses successfully
to the null scalar — not a key-value mapping — and the parser then returns the
trimmed body "hi", not the original unmodified text. -/
theorem c7_frontmatter_cex :
    parseYamlModel "null" = some .nullv ∧
    parseFrontmatter parseYamlModel nullHeaderDoc = (none, "hi") ∧
    parseFrontmatter parseYamlModel nullHeaderDoc ≠ (none, nullHeaderDoc) := by
  decide

/-- C7 amended: a delimiter-shape mismatch or a header-parse exception yields
(no header, the original unmodified text); a header parsing to the null value
yields (no header, trimmed body); any other successfully parsed header value —
mapping or not — is returned as the header together with the trimmed body. The
parser is a total function in all cases (never raises). -/
theorem c7_frontmatter_amended (p : String → Option Yaml) (content : String) :
    (splitFm content = none → parseFrontmatter p content = (none, content)) ∧
    (∀ h b, splitFm content = some (h, b) → p h = none →
      parseFrontmatter p content = (none, content)) ∧
    (∀ h b, splitFm content = some (h, b) → p h = some .nullv →
      parseFrontmatter p content = (none, jsTrim b)) ∧
    (∀ h b v, splitFm content = some (h, b) → p h = some v → v ≠ .nullv →
      parseFrontmatter p content = (some v, jsTrim b)) := by
  refine ⟨?_, ?_, ?_, ?_⟩
  · intro hs; unfold parseFrontmatter; rw [hs]
  · intro h b hs hp; unfold parseFrontmatter; rw [hs]; simp [hp]
  · intro h b hs hp; unfold parseFrontmatter; rw [hs]; simp [hp, jsDefined]
  · intro h b v hs hp hv
    unfold parseFrontmatter
    rw [hs]
    simp [hp, jsDefined_of_ne_null v hv]

/-- Witness for the amended C7: a document with no delimiters, and one whose
header raises, both come back unchanged with no header. -/
theorem c7_frontmatter_amended_witness :
    parseFrontmatter parseYamlModel "no delimiters here" =
      (none, "no delimiters here") ∧
    parseFrontmatter parseYamlModel "---\na: 1\n???\n---\nbody" =
      (none, "---\na: 1\n???\n---\nbody") := by
  constructor
  · exact (c7_frontmatter_amended parseYamlModel "no delimiters here").1 (by decide)
  · exact (c7_frontmatter_amended parseYamlModel "---\na: 1\n???\n---\nbody").2.1
      "a: 1\n???" "body" (by decide) (by decide)

/-! ### Claims C3 and C4 -/

theorem ensureLoaded_noop (yp : String → Option Yaml) (roots : List Root) (now : Nat)
    (s : LoaderState) (h1 : s.agentCache ≠ []) (h2 : now - s.lastLoadTime ≤ cacheExpiry) :
    ensureLoaded yp roots now s = s := by
  unfold ensureLoaded
  have hl : ¬(s.agentCache.length = 0) := fun h => h1 (List.length_eq_zero.mp h)
  have hr : needsRefresh s now = false := by
    unfold needsRefresh
    exact decide_eq_false (Nat.not_lt.mpr h2)
  simp [hl, hr]

theorem ensureLoaded_stale (yp : String → Option Yaml) (roots : List Root) (now : Nat)
    (s : LoaderState) (h : now - s.lastLoadTime > cacheExpiry) :
    ensureLoaded yp roots now s = loadAgents yp roots now s := by
  unfold ensureLoaded
  have hr : needsRefresh s now = true := by
    unfold needsRefresh
    exact decide_eq_true h
  simp [hr]

theorem ensureLoaded_empty (yp : String → Option Yaml) (roots : List Root) (now : Nat)
    (s : LoaderState) (h : s.agentCache = []) :
    ensureLoaded yp roots now s = loadAgents yp roots now s := by
  unfold ensureLoaded
  simp [h]

/-- C3 counterexample: after a pass over an empty filesystem (empty snapshot),
a read only 1 ms later — far inside the 60 s window — performs a fresh
discovery pass instead of reusing the snapshot, changing the state. -/
theorem c3_cache_ttl_cex :
    (1 : Nat) - (loadAgents parseYamlModel [] 0 initState).lastLoadTime ≤ cacheExpiry ∧
    ensureLoaded parseYamlModel [] 1 (loadAgents parseYamlModel [] 0 initState) =
      loadAgents parseYamlModel [] 1 (loadAgents parseYamlModel [] 0 initState) ∧
    ensureLoaded parseYamlModel [] 1 (loadAgents parseYamlModel [] 0 initState) ≠
      loadAgents parseYamlModel [] 0 initState := by
  decide

/-- C3 amended: provided the last pass's snapshot is nonempty, a read within
the 60 s time-to-live of that pass is the identity on the loader state (same
snapshot, no new scan) — hence any two such reads see the same pass; a read
with the time-to-live strictly exceeded, or with an empty snapshot, performs
exactly one new discovery pass. -/
theorem c3_cache_ttl (yp : String → Option Yaml) (roots : List Root) (now : Nat)
    (s : LoaderState) :
    (s.agentCache ≠ [] → now - s.lastLoadTime ≤ cacheExpiry →
      ensureLoaded yp roots now s = s) ∧
    (now - s.lastLoadTime > cacheExpiry →
      ensureLoaded yp roots now s = loadAgents yp roots now s) ∧
    (s.agentCache = [] → ensureLoaded yp roots now s = loadAgents yp roots now s) :=
  ⟨ensureLoaded_noop yp roots now s, ensureLoaded_stale yp roots now s,
    ensureLoaded_empty yp roots now s⟩

/-- Witness for the amended C3: a fresh nonempty snapshot is reused 5 ms later,
and rebuilt 70000 ms later. -/
theorem c3_cache_ttl_witness :
    ensureLoaded parseYamlModel rootsW 5 (loadAgents parseYamlModel rootsW 0 initState) =
      loadAgents parseYamlModel rootsW 0 initState ∧
    ensureLoaded parseYamlModel rootsW 70000 (loadAgents parseYamlModel rootsW 0 initState) =
      loadAgents parseYamlModel rootsW 70000 (loadAgents parseYamlModel rootsW 0 initState) :=
  ⟨(c3_cache_ttl parseYamlModel rootsW 5 (loadAgents parseYamlModel rootsW 0 initState)).1
      (by decide) (by decide),
   (c3_cache_ttl parseYamlModel rootsW 70000
      (loadAgents parseYamlModel rootsW 0 initState)).2.1 (by decide)⟩

/-- C4 counterexample: after a forced refresh at time 5, the last-refresh
timestamp is 5, not a reset value, and the next ensure-fresh read (at time 6)
does not rebuild the snapshot — it returns the state unchanged. -/
theorem c4_refresh_cex :
    (refresh parseYamlModel rootsW 5 initState).lastLoadTime = 5 ∧
    (refresh parseYamlModel rootsW 5 initState).lastLoadTime ≠ 0 ∧
    ensureLoaded parseYamlModel rootsW 6 (refresh parseYamlModel rootsW 5 initState) =
      refresh parseYamlModel rootsW 5 initState := by
  decide

/-- C4 amended: Force refresh zeroes the timestamp but then immediately runs
the discovery pass itself, which restamps the completion time — so a refresh
equals a plain pass at the current time, its timestamp is the refresh time, and
a subsequent ensure-fresh within the time-to-live (on a nonempty refreshed
snapshot) serves the refreshed snapshot without rebuilding. -/
theorem c4_refresh_rebuilds_now (yp : String → Option Yaml) (roots : List Root) (now : Nat)
    (s : LoaderState) :
    refresh yp roots now s = loadAgents yp roots now s ∧
    (refresh yp roots now s).lastLoadTime = now ∧
    (∀ now', (refresh yp roots now s).agentCache ≠ [] → now' - now ≤ cacheExpiry →
      ensureLoaded yp roots now' (refresh yp roots now s) = refresh yp roots now s) := by
  refine ⟨rfl, loadAgents_lastLoadTime yp roots now _, ?_⟩
  intro now' h1 h2
  refine ensureLoaded_noop yp roots now' _ h1 ?_
  unfold refresh
  rw [loadAgents_lastLoadTime]
  exact h2

/-- Witness for the amended C4 at time 5 over `rootsW`. -/
theorem c4_refresh_rebuilds_now_witness :
    refresh parseYamlModel rootsW 5 initState =
      loadAgents parseYamlModel rootsW 5 initState ∧
    ensureLoaded parseYamlModel rootsW 6 (refresh parseYamlModel rootsW 5 initState) =
      refresh parseYamlModel rootsW 5 initState :=
  ⟨(c4_refresh_rebuilds_now parseYamlModel rootsW 5 initState).1,
   (c4_refresh_rebuilds_now parseYamlModel rootsW 5 initState).2.2 6 (by decide) (by decide)⟩

/-! ### Claim C5 -/

theorem jsIncludes_empty (s : String) : jsIncludes s "" = true := by
  unfold jsIncludes
  cases s.data with
  | nil => rfl
  | cons c cs => simp [jsIncludesL, startsWithL]

/-- All fields the search predicate lowercases are strings (the type may also
be absent or null, which optional chaining tolerates). -/
def strValuedB (a : AgentDefinition) : Bool :=
  a.name.isStr && a.description.isStr && a.capabilities.all Yaml.isStr &&
  (match a.type with
   | none => true
   | some .nullv => true
   | some (.str _) => true
   | some _ => false)

theorem matchAgent_empty_query (a : AgentDefinition) (h : strValuedB a = true) :
    matchAgent "" a = .ok true := by
  unfold strValuedB at h
  rw [Bool.and_eq_true, Bool.and_eq_true, Bool.and_eq_true] at h
  obtain ⟨⟨⟨hn, _⟩, _⟩, _⟩ := h
  cases hname : a.name with
  | str s =>
    unfold matchAgent
    rw [hname]
    simp [jsLowerY, jsIncludes_empty]
  | num n => rw [hname] at hn; simp [Yaml.isStr] at hn
  | bool b => rw [hname] at hn; simp [Yaml.isStr] at hn
  | seq xs => rw [hname] at hn; simp [Yaml.isStr] at hn
  | map kvs => rw [hname] at hn; simp [Yaml.isStr] at hn
  | nullv => rw [hname] at hn; simp [Yaml.isStr] at hn

theorem filterE_all_ok_true {α : Type} (p : α → Except String Bool) (l : List α)
    (h : ∀ x ∈ l, p x = .ok true) : filterE p l = .ok l := by
  induction l with
  | nil => rfl
  | cons x xs ih =>
    have hx := h x (List.mem_cons_self _ _)
    have hxs := ih (fun y hy => h y (List.mem_cons_of_mem _ hy))
    simp only [filterE, hx, hxs]
    rfl

theorem insertSorted_perm {α : Type} (le : α → α → Bool) (x : α) (l : List α) :
    (insertSorted le x l).Perm (x :: l) := by
  induction l with
  | nil => exact List.Perm.refl _
  | cons y ys ih =>
    unfold insertSorted
    by_cases h : le x y
    · simp [h]
    · simp only [if_neg h]
      exact List.Perm.trans (List.Perm.cons y ih) (List.Perm.swap x y ys)

theorem sortByKey_perm {α : Type} (le : α → α → Bool) (l : List α) :
    (sortByKey le l).Perm l := by
  induction l with
  | nil => exact List.Perm.refl _
  | cons x xs ih =>
    unfold sortByKey at *
    simp only [List.foldr_cons]
    exact List.Perm.trans (insertSorted_perm le x _) (List.Perm.cons x ih)

/-- C5 counterexample: on a registry state holding one agent, the empty query
returns that agent — all agents of the snapshot — not empty results (and not an
error). -/
theorem c5_search_empty_cex :
    (searchAgents parseYamlModel rootsW 1 (loadAgents parseYamlModel rootsW 0 initState)
      "").2 = .ok [xCustomW] ∧
    (Except.ok [xCustomW] : Except String (List AgentDefinition)) ≠ .ok [] := by
  decide

/-- C5 amended: the empty query matches every agent (empty-substring matching),
so `searchAgents` with the empty query never throws on a snapshot whose
searched fields are strings and returns the entire name-sorted snapshot rather
than empty results. -/
theorem c5_search_empty_query (yp : String → Option Yaml) (roots : List Root) (now : Nat)
    (s : LoaderState)
    (h : ∀ a ∈ cacheValues (ensureLoaded yp roots now s).agentCache, strValuedB a = true) :
    searchAgents yp roots now s "" =
      (ensureLoaded yp roots now s,
       .ok (sortAgents (cacheValues (ensureLoaded yp roots now s).agentCache))) := by
  unfold searchAgents
  have hfil : filterE (matchAgent (jsToLower ""))
      (sortAgents (cacheValues (ensureLoaded yp roots now s).agentCache)) =
      .ok (sortAgents (cacheValues (ensureLoaded yp roots now s).agentCache)) := by
    apply filterE_all_ok_true
    intro a ha
    have hmem : a ∈ cacheValues (ensureLoaded yp roots now s).agentCache :=
      (sortByKey_perm _ _).mem_iff.mp ha
    exact matchAgent_empty_query a (h a hmem)
  simp only [hfil]

/-- Witness for the amended C5 on the nonempty `rootsW` snapshot. -/
theorem c5_search_empty_query_witness :
    searchAgents parseYamlModel rootsW 1 (loadAgents parseYamlModel rootsW 0 initState) "" =
      (ensureLoaded parseYamlModel rootsW 1 (loadAgents parseYamlModel rootsW 0 initState),
       .ok (sortAgents (cacheValues (ensureLoaded parseYamlModel rootsW 1
         (loadAgents parseYamlModel rootsW 0 initState)).agentCache))) :=
  c5_search_empty_query parseYamlModel rootsW 1
    (loadAgents parseYamlModel rootsW 0 initState) (by decide)

/-! ### Claim C6 -/

/-- C6 counterexample: with no discovered definition named "coder", the
capability accessor returns the built-in coder's capabilities, not the fixed
default sequence the claim requires. -/
theorem c6_capabilities_cex :
    cacheGet ([] : List (Yaml × AgentDefinition)) (.str "coder") = none ∧
    uniGetAgentCapabilities [] "coder" =
      [.str "Code Generation", .str "Implementation", .str "Refactoring",
        .str "Debugging"] ∧
    uniGetAgentCapabilities [] "coder" ≠ defaultCapabilities := by
  decide

/-- C6 amended: capabilities resolve through the unified lookup — the
discovered definition's capabilities when a discovered definition with that
name exists, else the built-in agent's capabilities when a built-in with that
name exists, else the fixed default sequence. -/
theorem c6_capabilities_amended (cache : List (Yaml × AgentDefinition)) (name : String) :
    (∀ d, cacheGet cache (.str name) = some d →
      uniGetAgentCapabilities cache name = d.capabilities) ∧
    (cacheGet cache (.str name) = none → ∀ b, builtinGet name = some b →
      uniGetAgentCapabilities cache name = b.capabilities.map .str) ∧
    (cacheGet cache (.str name) = none → builtinGet name = none →
      uniGetAgentCapabilities cache name = defaultCapabilities) := by
  refine ⟨?_, ?_, ?_⟩
  · intro d hd
    unfold uniGetAgentCapabilities uniGetAgent
    rw [hd]
    rfl
  · intro hn b hb
    unfold uniGetAgentCapabilities uniGetAgent
    rw [hn, hb]
    rfl
  · intro hn hb
    unfold uniGetAgentCapabilities uniGetAgent
    rw [hn, hb]
    rfl

/-- The built-in coder record. -/
def coderB : BuiltInAgent :=
  { name := "coder", type := "coder"
    description := "Writes, reviews, and maintains code implementations"
    capabilities := ["Code Generation", "Implementation", "Refactoring", "Debugging"]
    isBuiltIn := true }

/-- Witness for the amended C6: all three resolution layers at concrete inputs. -/
theorem c6_capabilities_amended_witness :
    uniGetAgentCapabilities [(Yaml.str "x", xCustomW)] "x" = xCustomW.capabilities ∧
    uniGetAgentCapabilities [] "coder" = coderB.capabilities.map .str ∧
    uniGetAgentCapabilities [] "zzz" = defaultCapabilities :=
  ⟨(c6_capabilities_amended [(Yaml.str "x", xCustomW)] "x").1 xCustomW (by decide),
   (c6_capabilities_amended [] "coder").2.1 (by decide) coderB (by decide),
   (c6_capabilities_amended [] "zzz").2.2 (by decide) (by decide)⟩

/-! ### Claim C8 -/

theorem mem_cacheSet {α : Type} (m : List (Yaml × α)) (k : Yaml) (v : α)
    (p : Yaml × α) (h : p ∈ cacheSet m k v) : p ∈ m ∨ p = (k, v) := by
  induction m with
  | nil =>
    simp [cacheSet] at h
    exact Or.inr h
  | cons hd tl ih =>
    obtain ⟨k', w⟩ := hd
    by_cases h2 : k' = k
    · subst h2
      simp only [cacheSet, if_pos rfl] at h
      cases h with
      | head => exact Or.inr rfl
      | tail _ h1 => exact Or.inl (List.mem_cons_of_mem _ h1)
    · simp only [cacheSet, if_neg h2] at h
      cases h with
      | head => exact Or.inl (List.mem_cons_self _ _)
      | tail _ h1 =>
        cases ih h1 with
        | inl h3 => exact Or.inl (List.mem_cons_of_mem _ h3)
        | inr h3 => exact Or.inr h3

/-- The unified overlay preserves the key-is-name invariant. -/
theorem overlay_inv (ds : List AgentDefinition) :
    ∀ m : List (Yaml × AnyAgent), (∀ p ∈ m, AnyAgent.nameY p.2 = p.1) →
    ∀ p ∈ ds.foldl (fun m d => cacheSet m d.name (AnyAgent.custom d)) m,
      AnyAgent.nameY p.2 = p.1 := by
  induction ds with
  | nil => intro m hm; simpa using hm
  | cons d ds ih =>
    intro m hm
    simp only [List.foldl_cons]
    apply ih
    intro p hp
    rcases mem_cacheSet m d.name (AnyAgent.custom d) p hp with h | h
    · exact hm p h
    · rw [h]; rfl

/-- The unified overlay preserves key uniqueness. -/
theorem overlay_nodup (ds : List AgentDefinition) :
    ∀ m : List (Yaml × AnyAgent), (cacheKeys m).Nodup →
    (cacheKeys (ds.foldl (fun m d => cacheSet m d.name (AnyAgent.custom d)) m)).Nodup := by
  induction ds with
  | nil => intro m hm; simpa using hm
  | cons d ds ih =>
    intro m hm
    simp only [List.foldl_cons]
    exact ih _ (nodup_cacheKeys_cacheSet m d.name _ hm)

theorem overlay_get_stable (ds : List AgentDefinition) :
    ∀ m : List (Yaml × AnyAgent), ∀ n : Yaml, ∀ x : AnyAgent,
    cacheGet m n = some x → (∀ d ∈ ds, d.name ≠ n) →
    cacheGet (ds.foldl (fun m d => cacheSet m d.name (AnyAgent.custom d)) m) n = some x := by
  induction ds with
  | nil => intro m n x h _; simpa using h
  | cons d ds ih =>
    intro m n x h hall
    simp only [List.foldl_cons]
    refine ih _ n x ?_ (fun e he => hall e (List.mem_cons_of_mem _ he))
    rw [cacheGet_cacheSet_ne m d.name n _
      (fun he => hall d (List.mem_cons_self _ _) he.symm)]
    exact h

/-- A definition bearing the name `n`. -/
def namedIs (n : Yaml) (d : AgentDefinition) : Bool := decide (d.name = n)

/-- Overlay writes unconditionally, so the last same-name write wins. -/
theorem overlay_get_last (n : Yaml) (ds : List AgentDefinition) :
    ∀ m : List (Yaml × AnyAgent), ∀ c : AgentDefinition,
    (ds.filter (namedIs n)).getLast? = some c →
    cacheGet (ds.foldl (fun m d => cacheSet m d.name (AnyAgent.custom d)) m) n =
      some (AnyAgent.custom c) := by
  induction ds with
  | nil => intro m c h; simp at h
  | cons d ds ih =>
    intro m c h
    simp only [List.foldl_cons]
    by_cases hd : namedIs n d = true
    · have hfc : (d :: ds).filter (namedIs n) = d :: ds.filter (namedIs n) :=
        List.filter_cons_of_pos hd
      rw [hfc] at h
      cases hds : ds.filter (namedIs n) with
      | nil =>
        rw [hds, List.getLast?_singleton] at h
        obtain rfl := Option.some.inj h
        have hname : d.name = n := of_decide_eq_true hd
        refine overlay_get_stable ds _ n (AnyAgent.custom d) ?_ ?_
        · rw [← hname]; exact cacheGet_cacheSet_self m d.name _
        · intro e he hen
          have hmem : e ∈ ds.filter (namedIs n) :=
            List.mem_filter.mpr ⟨he, decide_eq_true hen⟩
          rw [hds] at hmem
          simp at hmem
      | cons f fs =>
        have h2 : (d :: ds.filter (namedIs n)).getLast? =
            (ds.filter (namedIs n)).getLast? := by
          rw [hds]; exact List.getLast?_cons_cons
        rw [h2] at h
        exact ih _ c h
    · have hfc : (d :: ds).filter (namedIs n) = ds.filter (namedIs n) :=
        List.filter_cons_of_neg hd
      rw [hfc] at h
      exact ih _ c h

/-- In a name-keyed map with unique keys, filtering the values by the bound
name picks out exactly the looked-up entry. -/
theorem filter_values_single (m : List (Yaml × AnyAgent)) (k : Yaml) (v : AnyAgent) :
    (cacheKeys m).Nodup → (∀ p ∈ m, AnyAgent.nameY p.2 = p.1) →
    cacheGet m k = some v →
    (m.map (fun kv => kv.2)).filter (fun x => decide (AnyAgent.nameY x = k)) = [v] := by
  induction m with
  | nil => intro _ _ h; simp [cacheGet] at h
  | cons hd tl ih =>
    intro hnd hinv hget
    obtain ⟨k', w⟩ := hd
    simp only [cacheKeys, List.map_cons, List.nodup_cons] at hnd
    have hw : AnyAgent.nameY w = k' := hinv (k', w) (List.mem_cons_self _ _)
    by_cases h2 : k' = k
    · subst h2
      simp only [cacheGet, if_pos rfl] at hget
      obtain rfl := Option.some.inj hget
      have hcond : decide (AnyAgent.nameY w = k') = true := decide_eq_true hw
      have htl : (tl.map (fun kv => kv.2)).filter
          (fun x => decide (AnyAgent.nameY x = k')) = [] := by
        rw [List.filter_eq_nil_iff]
        intro x hx
        rw [List.mem_map] at hx
        obtain ⟨⟨k2, y⟩, hmem, rfl⟩ := hx
        have hy : AnyAgent.nameY y = k2 := hinv _ (List.mem_cons_of_mem _ hmem)
        rw [hy]
        simp only [decide_eq_true_eq]
        intro he
        exact hnd.1 (he ▸ (List.mem_map_of_mem Prod.fst hmem))
      simp only [List.map_cons, List.filter_cons, hcond, if_true, htl]
    · simp only [cacheGet, if_neg h2] at hget
      have hcond : decide (AnyAgent.nameY w = k) = false := by
        rw [hw]; exact decide_eq_false h2
      simp only [List.map_cons, List.filter_cons, hcond, Bool.false_eq_true, if_false]
      exact ih hnd.2 (fun p hp => hinv p (List.mem_cons_of_mem _ hp)) hget

/-- C8: with the built-in "coder" in the catalog and exactly one discovered
definition named "coder" in the snapshot listing, the unified listing contains
exactly one entry named "coder" — the custom definition — and the statistics
report "coder" among the overridden built-ins, with total equal to built-in
count plus discovered count minus the number of shadowed built-ins. -/
theorem c8_builtin_shadowing (ds : List AgentDefinition) (c : AgentDefinition)
    (hc : c ∈ ds) (hname : c.name = .str "coder")
    (huniq : ∀ d ∈ ds, d.name = .str "coder" → d = c) :
    (uniGetAllAgents ds).filter (fun x => decide (AnyAgent.nameY x = .str "coder")) =
      [AnyAgent.custom c] ∧
    "coder" ∈ (uniGetStats ds).overriddenBuiltIns ∧
    (uniGetStats ds).totalAgents =
      (uniGetStats ds).builtInCount + (uniGetStats ds).customCount -
        (uniGetStats ds).overriddenBuiltIns.length := by
  refine ⟨?_, ?_, rfl⟩
  · unfold uniGetAllAgents sortAny
    have hnd : (cacheKeys (ds.foldl
        (fun m d => cacheSet m d.name (AnyAgent.custom d)) builtinMap)).Nodup :=
      overlay_nodup ds builtinMap (by decide)
    have hinv : ∀ p ∈ ds.foldl
        (fun m d => cacheSet m d.name (AnyAgent.custom d)) builtinMap,
        AnyAgent.nameY p.2 = p.1 :=
      overlay_inv ds builtinMap (by decide)
    have hlast : (ds.filter (namedIs (.str "coder"))).getLast? = some c := by
      have hmemf : c ∈ ds.filter (namedIs (.str "coder")) :=
        List.mem_filter.mpr ⟨hc, decide_eq_true hname⟩
      refine getLast?_all_eq _ c (List.ne_nil_of_mem hmemf) ?_
      intro x hx
      rw [List.mem_filter] at hx
      exact huniq x hx.1 (of_decide_eq_true hx.2)
    have hget := overlay_get_last (.str "coder") ds builtinMap c hlast
    have hfv := filter_values_single _ (.str "coder") (AnyAgent.custom c) hnd hinv hget
    have hperm := (sortByKey_perm (fun a b => decide (anyNameKey a ≤ anyNameKey b))
      ((ds.foldl (fun m d => cacheSet m d.name (AnyAgent.custom d)) builtinMap).map
        (fun kv => kv.2))).filter (fun x => decide (AnyAgent.nameY x = .str "coder"))
    rw [hfv] at hperm
    exact List.perm_singleton.mp hperm
  · unfold uniGetStats
    refine List.mem_filter.mpr ⟨by decide, ?_⟩
    rw [List.any_eq_true]
    exact ⟨Yaml.str "coder", by rw [← hname]; exact List.mem_map_of_mem _ hc, by decide⟩

/-- A discovered coder definition shadowing the built-in coder. -/
def coderCustomW : AgentDefinition :=
  { name := .str "coder", type := some (.str "coder"), color := none
    description := .str "my coder", capabilities := [.str "solo"]
    priority := .str "high", hooks := none, systemPrompt := "be brief"
    sourcePath := "/p/.claude-flow/agents/coder.md", category := "custom"
    isCustom := true }

/-- Witness for C8 with `coderCustomW` as the sole discovered definition. -/
theorem c8_builtin_shadowing_witness :
    (uniGetAllAgents [coderCustomW]).filter
      (fun x => decide (AnyAgent.nameY x = .str "coder")) = [AnyAgent.custom coderCustomW] ∧
    "coder" ∈ (uniGetStats [coderCustomW]).overriddenBuiltIns ∧
    (uniGetStats [coderCustomW]).totalAgents = 9 := by
  have h := c8_builtin_shadowing [coderCustomW] coderCustomW (by decide) (by decide)
    (by decide)
  exact ⟨h.1, h.2.1, by decide⟩

/-! ### Claim C10 -/

theorem startsWithL_nil (s : List Char) : startsWithL s [] = true := by
  cases s <;> rfl

theorem startsWithL_append_self (l r : List Char) : startsWithL (l ++ r) l = true := by
  induction l with
  | nil => simp [startsWithL_nil]
  | cons c cs ih => simp [startsWithL, ih]

theorem jsReplaceFirstL_of_startsWith (pat rep s : List Char)
    (h : startsWithL s pat = true) :
    jsReplaceFirstL pat rep s = rep ++ s.drop pat.length := by
  cases s with
  | nil =>
    cases pat with
    | nil => simp [jsReplaceFirstL]
    | cons d ds => simp [startsWithL] at h
  | cons c cs =>
    unfold jsReplaceFirstL
    rw [if_pos h]

theorem jsReplaceFirstL_append (pat rest : List Char) :
    jsReplaceFirstL pat [] (pat ++ rest) = rest := by
  rw [jsReplaceFirstL_of_startsWith pat [] (pat ++ rest) (startsWithL_append_self pat rest)]
  simp [List.drop_left]

theorem splitSepsL_no_sep (l : List Char) (h : ∀ c ∈ l, isPathSep c = false) :
    splitSepsL l = [l] := by
  induction l with
  | nil => rfl
  | cons c cs ih =>
    have hc : isPathSep c = false := h c (List.mem_cons_self _ _)
    have ihh := ih (fun d hd => h d (List.mem_cons_of_mem _ hd))
    unfold splitSepsL
    rw [ihh]
    simp [hc]

theorem dropWhile_append_all {α : Type} (p : α → Bool) (l1 l2 : List α)
    (h : ∀ c ∈ l1, p c = true) :
    List.dropWhile p (l1 ++ l2) = List.dropWhile p l2 := by
  induction l1 with
  | nil => rfl
  | cons c cs ih =>
    simp only [List.cons_append, List.dropWhile_cons, h c (List.mem_cons_self _ _), if_true]
    exact ih (fun d hd => h d (List.mem_cons_of_mem _ hd))

theorem dropWhile_head_false {α : Type} (p : α → Bool) (a : α) (l : List α)
    (h : p a = false) : List.dropWhile p (a :: l) = a :: l := by
  simp [List.dropWhile_cons, h]

theorem jsDirname_concat (dir base : String)
    (hd : dir.data ≠ []) (hdl : dir.data.getLast? ≠ some '/')
    (hb : base.data ≠ []) (hbs : ∀ c ∈ base.data, isPathSep c = false) :
    jsDirname (dir ++ "/" ++ base) = dir := by
  have hdata : (dir ++ "/" ++ base).data = dir.data ++ '/' :: base.data := by
    rw [String.data_append, String.data_append]
    simp
  have hrev : (dir.data ++ '/' :: base.data).reverse =
      base.data.reverse ++ '/' :: dir.data.reverse := by
    rw [List.reverse_append, List.reverse_cons]
    simp
  have hbs' : ∀ c ∈ base.data.reverse, (c == '/') = false := by
    intro c hc
    have hmem : c ∈ base.data := List.mem_reverse.mp hc
    have hps := hbs c hmem
    unfold isPathSep at hps
    exact (Bool.or_eq_false_iff.mp hps).1
  obtain ⟨b0, bs, hbr⟩ : ∃ b0 bs, base.data.reverse = b0 :: bs := by
    cases hc : base.data.reverse with
    | nil => exact absurd (by simpa using hc) hb
    | cons b0 bs => exact ⟨b0, bs, rfl⟩
  obtain ⟨d0, ds, hdr⟩ : ∃ d0 ds, dir.data.reverse = d0 :: ds := by
    cases hc : dir.data.reverse with
    | nil => exact absurd (by simpa using hc) hd
    | cons d0 ds => exact ⟨d0, ds, rfl⟩
  have hb0 : (b0 == '/') = false := hbs' b0 (by rw [hbr]; exact List.mem_cons_self _ _)
  have hd0 : (d0 == '/') = false := by
    have hhead : dir.data.getLast? = some d0 := by
      rw [← List.head?_reverse, hdr]
      rfl
    rw [Bool.eq_false_iff]
    intro he
    exact hdl (by rw [hhead, show d0 = '/' from by simpa using he])
  have hchain : List.dropWhile (fun c => c == '/')
      (List.dropWhile (fun c => c != '/')
        (List.dropWhile (fun c => c == '/') ((dir.data ++ '/' :: base.data).reverse))) =
      dir.data.reverse := by
    rw [hrev, hbr, List.cons_append,
      dropWhile_head_false (fun c => c == '/') b0 _ hb0,
      ← List.cons_append, ← hbr,
      dropWhile_append_all (fun c => c != '/') base.data.reverse _
        (fun c hc => by simpa using hbs' c hc),
      dropWhile_head_false (fun c => c != '/') '/' _ (by decide)]
    have hstep3 : List.dropWhile (fun c => c == '/') ('/' :: dir.data.reverse) =
        List.dropWhile (fun c => c == '/') dir.data.reverse := by
      simp [List.dropWhile_cons]
    rw [hstep3, hdr, dropWhile_head_false (fun c => c == '/') d0 _ hd0, ← hdr]
  have hne : dir.data.reverse.isEmpty = false := by
    rw [hdr]
    rfl
  unfold jsDirname
  simp only [hdata, hchain, hne, Bool.false_eq_true, if_false]
  simp

theorem extractCategory_parent (dir base : String)
    (hbs : ∀ c ∈ base.data, isPathSep c = false) :
    extractCategory (dir ++ "/" ++ base) dir = "custom" := by
  have hdata : (dir ++ "/" ++ base).data = dir.data ++ '/' :: base.data := by
    rw [String.data_append, String.data_append]
    simp
  have hstrip : stripLeadingSepL ('/' :: base.data) = base.data := by
    simp [stripLeadingSepL, isPathSep]
  unfold extractCategory
  simp only [hdata, jsReplaceFirstL_append, hstrip, splitSepsL_no_sep base.data hbs]
  rfl

/-- The reader stamps `category` from the supplied root and `isCustom` from the
root path's ".claude-flow" substring test. -/
theorem parseAgentFileE_fields (yp : String → Option Yaml)
    (filePath content baseDir : String) (a : AgentDefinition)
    (h : parseAgentFileE yp filePath content baseDir = .ok a) :
    a.category = extractCategory filePath baseDir ∧
    a.isCustom = jsIncludes baseDir ".claude-flow" := by
  unfold parseAgentFileE at h
  rcases hpf : parseFrontmatter yp content with ⟨fmO, body⟩
  rw [hpf] at h
  cases fmO with
  | none => simp at h
  | some fm =>
    by_cases ht : fm.truthy
    · simp only [ht, if_true] at h
      by_cases hn : (jsOrY (fm.getField "name")
          (.str (collapseWs (jsToLower (jsBasenameExt filePath ".md"))))).truthy
      · simp only [hn, if_true, Except.ok.injEq] at h
        subst h
        exact ⟨rfl, rfl⟩
      · simp [hn] at h
    · simp [ht] at h

/-- The validation result carries a definition only when the independent
re-parse rooted at the file's parent directory succeeded with that definition. -/
theorem validate_agent_eq (yp : String → Option Yaml) (fs : String → Option String)
    (filePath : String) (a : AgentDefinition)
    (h : (validateAgentFile yp fs filePath).agent = some a) :
    ∃ content, fs filePath = some content ∧
      parseAgentFileE yp filePath content (jsDirname filePath) = .ok a := by
  unfold validateAgentFile at h
  cases hfs : fs filePath with
  | none => rw [hfs] at h; simp at h
  | some content =>
    simp only [hfs] at h
    refine ⟨content, rfl, ?_⟩
    rcases hpf : parseFrontmatter yp content with ⟨fmO, body⟩
    simp only [hpf] at h
    cases fmO with
    | none => simp [noFmResult] at h
    | some fm =>
      by_cases ht : fm.truthy
      · simp only [ht, if_true] at h
        cases hpa : parseAgentFileE yp filePath content (jsDirname filePath) with
        | ok a2 =>
          simp only [hpa] at h
          split at h
          · simp only [Option.some.injEq] at h
            rw [h]
          · simp at h
        | error e =>
          simp only [hpa] at h
          split at h <;> simp at h
      · simp [ht, noFmResult] at h

/-- C10: for every existing file at a well-formed path `dir/base` (nonempty
parent path not ending in a separator, separator-free basename), the definition
in the per-file validation result is built with the file's own parent directory
as the root: its `category` is the literal "custom", and its `isCustom` flag
holds exactly when the parent directory path contains ".claude-flow" — even for
files that discovery would have placed in a named subdirectory category. -/
theorem c10_validate_parentdir (yp : String → Option Yaml) (fs : String → Option String)
    (dir base : String) (a : AgentDefinition)
    (hd : dir.data ≠ []) (hdl : dir.data.getLast? ≠ some '/')
    (hb : base.data ≠ []) (hbs : ∀ c ∈ base.data, isPathSep c = false)
    (h : (validateAgentFile yp fs (dir ++ "/" ++ base)).agent = some a) :
    a.category = "custom" ∧ a.isCustom = jsIncludes dir ".claude-flow" := by
  obtain ⟨content, hfs, hpa⟩ := validate_agent_eq yp fs _ a h
  rw [jsDirname_concat dir base hd hdl hb hbs] at hpa
  have hf := parseAgentFileE_fields yp _ content dir a hpa
  rw [extractCategory_parent dir base hbs] at hf
  exact hf

/-- The one-file filesystem used by the C10 witness. -/
def fsW : String → Option String := fun p =>
  if p = "/w/.claude-flow/agents" ++ "/" ++ "x.md" then
    some "---\nname: x\n---\nbody text"
  else none

/-- Witness for C10: validating a file directly under a custom root yields a
definition with category "custom" and isCustom = true. -/
theorem c10_validate_parentdir_witness :
    ((validateAgentFile parseYamlModel fsW
      ("/w/.claude-flow/agents" ++ "/" ++ "x.md")).agent.map
        (fun a => (a.category, a.isCustom))) = some ("custom", true) := by
  cases hag : (validateAgentFile parseYamlModel fsW
      ("/w/.claude-flow/agents" ++ "/" ++ "x.md")).agent with
  | none =>
    have hsome : (validateAgentFile parseYamlModel fsW
        ("/w/.claude-flow/agents" ++ "/" ++ "x.md")).agent.isSome = true := by decide
    rw [hag] at hsome
    simp at hsome
  | some a =>
    have hc := c10_validate_parentdir parseYamlModel fsW "/w/.claude-flow/agents" "x.md" a
      (by decide) (by decide) (by decide) (by decide) hag
    have hinc : jsIncludes "/w/.claude-flow/agents" ".claude-flow" = true := by decide
    simp [hc.1, hc.2, hinc]

end ClaudeFlow
